import Mathlib

/-!
Shallow embedding of the Monte Carlo SDE pricing engine
(`Final_Project_P4`: `SDE.cpp`, `FDM.cpp`, `RNG.cpp`, `Payoff.cpp`,
`MCSolver.cpp`).  `double` is modelled by `ℝ`; C++ exceptions by
`Except Err`; the random source by an explicit stream `draws : ℕ → ℝ`
consumed in path-major / step-minor order (draw number `i*N + j` is the
`j`-th draw of path `i`, exactly the order `MCSolver::solve` calls
`rng->generate()`).
-/

namespace MC

/-- Error conditions raised by the engine (kinds of the C++ exceptions
thrown in `FDM.cpp` and `MCSolver.cpp`). -/
inductive Err where
  | invalidStepSize
  | negativeAssetPrice
  | invalidConfiguration
  deriving DecidableEq

/-- A stochastic model: drift and diffusion coefficients
(the `SDE` base class of `SDE.hpp`). -/
structure SDEfun where
  drift : ℝ → ℝ → ℝ
  diffusion : ℝ → ℝ → ℝ

/-- `GBM::drift` and `GBM::diffusion` from `SDE.cpp`. -/
def GBM (mu sigma : ℝ) : SDEfun :=
  { drift := fun S _t => mu * S
    diffusion := fun S _t => sigma * S }

/-- `CEV::drift` and `CEV::diffusion` from `SDE.cpp`
(`std::pow(S, gamma)` modelled by `Real.rpow`). -/
noncomputable def CEV (mu sigma gamma : ℝ) : SDEfun :=
  { drift := fun S _t => mu * S
    diffusion := fun S _t => sigma * S ^ gamma }

/-- `CIR::drift` and `CIR::diffusion` from `SDE.cpp`. -/
noncomputable def CIR (kappa theta sigma : ℝ) : SDEfun :=
  { drift := fun S _t => kappa * (theta - S)
    diffusion := fun S _t => sigma * Real.sqrt S }

/-- The three discretization schemes of `FDM.hpp`. -/
inductive FDMKind where
  | eulerMethod
  | milsteinMethod
  | driftAdjustedPredictorCorrector
  deriving DecidableEq

/-- The state update of `EulerMethod::advance` (`FDM.cpp` line 29),
after the step-size check has passed. -/
def eulerStep (sde : SDEfun) (S t dt dW : ℝ) : ℝ :=
  S + sde.drift S t * dt + sde.diffusion S t * dW

/-- `EulerMethod::advance` (`FDM.cpp` lines 23-30): throws on `dt <= 0`,
otherwise returns the Euler update. -/
noncomputable def eulerAdvance (sde : SDEfun) (S t dt dW : ℝ) : Except Err ℝ :=
  if dt ≤ 0 then .error .invalidStepSize
  else .ok (eulerStep sde S t dt dW)

/-- The state update of `MilsteinMethod::advance` (`FDM.cpp` lines 46-50),
after the step-size check has passed.  The diffusion derivative is the
forward finite difference with step `1e-5`, exactly as in the source. -/
noncomputable def milsteinStep (sde : SDEfun) (S t dt dW : ℝ) : ℝ :=
  let drift := sde.drift S t
  let diffusion := sde.diffusion S t
  let diffusionDerivative := (sde.diffusion (S + 1e-5) t - sde.diffusion S t) / 1e-5
  S + drift * dt + diffusion * dW + 0.5 * diffusion * diffusionDerivative * (dW * dW - dt)

/-- `MilsteinMethod::advance` (`FDM.cpp` lines 40-51). -/
noncomputable def milsteinAdvance (sde : SDEfun) (S t dt dW : ℝ) : Except Err ℝ :=
  if dt ≤ 0 then .error .invalidStepSize
  else .ok (milsteinStep sde S t dt dW)

/-- The state update of `DriftAdjustedPredictorCorrector::advance`
(`FDM.cpp` lines 67-77): Euler predictor, then a corrector averaging the
drift at `(S, t)` and at the predicted state at `t + dt`; the diffusion
factor of the corrected value is the one evaluated at `(S, t)`. -/
def pcStep (sde : SDEfun) (S t dt dW : ℝ) : ℝ :=
  let drift := sde.drift S t
  let diffusion := sde.diffusion S t
  let S_predictor := S + drift * dt + diffusion * dW
  let drift_corrector := sde.drift S_predictor (t + dt)
  S + 0.5 * (drift + drift_corrector) * dt + diffusion * dW

/-- `DriftAdjustedPredictorCorrector::advance` (`FDM.cpp` lines 61-78). -/
noncomputable def pcAdvance (sde : SDEfun) (S t dt dW : ℝ) : Except Err ℝ :=
  if dt ≤ 0 then .error .invalidStepSize
  else .ok (pcStep sde S t dt dW)

/-- Virtual dispatch of `FDM::advance` over the three schemes. -/
noncomputable def advance : FDMKind → SDEfun → ℝ → ℝ → ℝ → ℝ → Except Err ℝ
  | .eulerMethod => eulerAdvance
  | .milsteinMethod => milsteinAdvance
  | .driftAdjustedPredictorCorrector => pcAdvance

/-- The successful state update of each scheme (the value `advance`
returns when the step-size check passes). -/
noncomputable def stepVal : FDMKind → SDEfun → ℝ → ℝ → ℝ → ℝ → ℝ
  | .eulerMethod => eulerStep
  | .milsteinMethod => milsteinStep
  | .driftAdjustedPredictorCorrector => pcStep

/-- The payoff variants of `Payoff.hpp`, with their immutable
parameters. -/
inductive Payoff where
  | EuropeanCall (K : ℝ)
  | EuropeanPut (K : ℝ)
  | BarrierOption (K B : ℝ) (isCall isUp isIn : Bool)
  | AsianOption (K : ℝ) (isCall : Bool)

/-- The terminal-value form `operator()(double S)` of each payoff class
(`Payoff.cpp`).  For `BarrierOption` the barrier test is `S >= B`
(up) or `S <= B` (down); for `AsianOption` a single price is not
meaningful and the result is `0`. -/
noncomputable def payoffTerminal : Payoff → ℝ → ℝ
  | .EuropeanCall K, S => max (S - K) 0
  | .EuropeanPut K, S => max (K - S) 0
  | .BarrierOption K B isCall isUp isIn, S =>
      let isBarrierHit : Bool := if isUp then decide (S ≥ B) else decide (S ≤ B)
      if isIn then
        if isBarrierHit = false then 0
        else if isCall then max (S - K) 0 else max (K - S) 0
      else
        if isBarrierHit = true then 0
        else if isCall then max (S - K) 0 else max (K - S) 0
  | .AsianOption _K _isCall, _S => 0

/-- The path form `operator()(const std::vector<double>&)` of each payoff
class (`Payoff.cpp`).  `EuropeanCall`, `EuropeanPut` and `BarrierOption`
evaluate the terminal form at `path.back()` (modelled by `getLastD 0`;
the engine only passes non-empty paths); `AsianOption` takes the
geometric average of the whole path. -/
noncomputable def payoffPath : Payoff → List ℝ → ℝ
  | .EuropeanCall K, path => payoffTerminal (.EuropeanCall K) (path.getLastD 0)
  | .EuropeanPut K, path => payoffTerminal (.EuropeanPut K) (path.getLastD 0)
  | .BarrierOption K B isCall isUp isIn, path =>
      payoffTerminal (.BarrierOption K B isCall isUp isIn) (path.getLastD 0)
  | .AsianOption K isCall, path =>
      let logSum := path.foldl (fun acc price => acc + Real.log price) 0
      let geometricAverage := Real.exp (logSum / path.length)
      if isCall then max (geometricAverage - K) 0 else max (K - geometricAverage) 0

/-- The `dynamic_pointer_cast<AsianOption>` test of `MCSolver::solve`
line 63: true exactly on the `AsianOption` variant. -/
def Payoff.isAsian : Payoff → Bool
  | .AsianOption _ _ => true
  | _ => false

/-- The configuration consumed by `MCSolver` (the component pointers and
the scalars `S0`, `T`, `N`, `M` of the constructor tuple). -/
structure Config where
  sde : SDEfun
  fdmKind : FDMKind
  payoff : Payoff
  S0 : ℝ
  T : ℝ
  N : ℕ
  M : ℕ

/-- The inner step loop of `MCSolver::solve` (lines 51-60), for one path:
`steps` steps remain, `j` is the current step index, `S` the current
state and `acc` the price path accumulated in reverse (`path[0] = S0`
is at the bottom).  Each step draws `draws (base + j)`, forms
`dW = sqrt dt * z`, advances with the scheme at time `j*dt`, aborts with
`negativeAssetPrice` if the new state is `< 0`, and stores the state. -/
noncomputable def simSteps (cfg : Config) (draws : ℕ → ℝ) (dt : ℝ) (base : ℕ) :
    ℕ → ℕ → ℝ → List ℝ → Except Err (ℝ × List ℝ)
  | 0, _j, S, acc => .ok (S, acc.reverse)
  | steps + 1, j, S, acc =>
      let dW := Real.sqrt dt * draws (base + j)
      match advance cfg.fdmKind cfg.sde S (j * dt) dt dW with
      | .error e => .error e
      | .ok S' =>
          if S' < 0 then .error .negativeAssetPrice
          else simSteps cfg draws dt base steps (j + 1) S' (S' :: acc)

/-- One Monte Carlo path of `MCSolver::solve`: `N` steps from `S0`, with
the path buffer initialized to `path[0] = S0`; path `i` consumes draws
`i*N .. i*N + N - 1`.  Returns the final state and the full path. -/
noncomputable def simPath (cfg : Config) (draws : ℕ → ℝ) (dt : ℝ) (i : ℕ) :
    Except Err (ℝ × List ℝ) :=
  simSteps cfg draws dt (i * cfg.N) cfg.N 0 cfg.S0 [cfg.S0]

/-- The outer simulation loop of `MCSolver::solve` (lines 45-71): `m`
paths remain, `i` is the current path index, `sum` the accumulated
payoff.  Asian payoffs are evaluated on the full path, all others on the
final state `S`. -/
noncomputable def pathLoop (cfg : Config) (draws : ℕ → ℝ) (dt : ℝ) :
    ℕ → ℕ → ℝ → Except Err ℝ
  | 0, _i, sum => .ok sum
  | m + 1, i, sum =>
      match simPath cfg draws dt i with
      | .error e => .error e
      | .ok (S, path) =>
          let contrib :=
            if cfg.payoff.isAsian then payoffPath cfg.payoff path
            else payoffTerminal cfg.payoff S
          pathLoop cfg draws dt m (i + 1) (sum + contrib)

/-- `MCSolver::solve` (`MCSolver.cpp` lines 36-74): `dt = T/N`, checked
positive; `M` paths simulated sequentially; the average payoff is
returned. -/
noncomputable def solve (cfg : Config) (draws : ℕ → ℝ) : Except Err ℝ :=
  let dt := cfg.T / cfg.N
  if dt ≤ 0 then .error .invalidConfiguration
  else
    match pathLoop cfg draws dt cfg.M 0 0 with
    | .error e => .error e
    | .ok sum => .ok (sum / cfg.M)

/-- Ghost trace of the run: the state of path `i` after `j` steps, as
the pure recurrence the scheme computes while no abort has happened.
The states of path `i` depend only on `S0` and draws `i*N ..`, so the trace
is well defined for every `(i, j)` whether or not the run aborts
earlier. -/
noncomputable def pathState (cfg : Config) (draws : ℕ → ℝ) (dt : ℝ) (i : ℕ) : ℕ → ℝ
  | 0 => cfg.S0
  | j + 1 =>
      stepVal cfg.fdmKind cfg.sde (pathState cfg draws dt i j) (j * dt) dt
        (Real.sqrt dt * draws (i * cfg.N + j))

/-- A concrete configuration used to instantiate theorems: GBM with
`mu = 1`, `sigma = 0`, Euler scheme, `EuropeanCall` strike `0`,
`S0 = 1`, `T = 1`, `N = 1`, `M = 1`. -/
def cfgGBM1 : Config :=
  { sde := GBM 1 0
    fdmKind := .eulerMethod
    payoff := .EuropeanCall 0
    S0 := 1
    T := 1
    N := 1
    M := 1 }

/-- The zero draw stream. -/
def drawsZero : ℕ → ℝ := fun _ => 0

lemma advance_ok (kind : FDMKind) (sde : SDEfun) (S t dt dW : ℝ) (h : 0 < dt) :
    advance kind sde S t dt dW = .ok (stepVal kind sde S t dt dW) := by
  have h' : ¬ dt ≤ 0 := not_le.mpr h
  cases kind <;>
    simp [advance, eulerAdvance, milsteinAdvance, pcAdvance, stepVal, h']

/-- C3: `DriftAdjustedPredictorCorrector::advance` returns
`S + 0.5*(drift(S,t) + drift(S_pred, t+dt))*dt + diffusion(S,t)*dW`
where `S_pred = S + drift(S,t)*dt + diffusion(S,t)*dW`; the diffusion
factor in the corrected value is the one evaluated at `(S, t)`. -/
theorem pc_advance_formula (sde : SDEfun) (S t dt dW : ℝ) (h : 0 < dt) :
    pcAdvance sde S t dt dW =
      .ok (S + 0.5 * (sde.drift S t +
            sde.drift (S + sde.drift S t * dt + sde.diffusion S t * dW) (t + dt)) * dt +
          sde.diffusion S t * dW) := by
  have h' : ¬ dt ≤ 0 := not_le.mpr h
  simp only [pcAdvance, if_neg h', pcStep]

/-- Witness for C3 at `sde = GBM 1 1`, `S = 1`, `t = 0`, `dt = 1`,
`dW = 1`. -/
theorem pc_advance_formula_witness :
    (0 : ℝ) < 1 ∧
      pcAdvance (GBM 1 1) 1 0 1 1 =
        .ok (1 + 0.5 * ((GBM 1 1).drift 1 0 +
              (GBM 1 1).drift (1 + (GBM 1 1).drift 1 0 * 1 + (GBM 1 1).diffusion 1 0 * 1) (0 + 1)) * 1 +
            (GBM 1 1).diffusion 1 0 * 1) :=
  ⟨by norm_num, pc_advance_formula (GBM 1 1) 1 0 1 1 (by norm_num)⟩

/-- C4: `MilsteinMethod::advance` returns
`S + drift*dt + diffusion*dW + 0.5*diffusion*diffDeriv*(dW^2 - dt)`
where `diffDeriv` is the forward finite difference of the diffusion with
step `1e-5`. -/
theorem milstein_advance_formula (sde : SDEfun) (S t dt dW : ℝ) (h : 0 < dt) :
    milsteinAdvance sde S t dt dW =
      .ok (S + sde.drift S t * dt + sde.diffusion S t * dW +
        0.5 * sde.diffusion S t *
          ((sde.diffusion (S + 1e-5) t - sde.diffusion S t) / 1e-5) * (dW ^ 2 - dt)) := by
  have h' : ¬ dt ≤ 0 := not_le.mpr h
  simp only [milsteinAdvance, if_neg h', milsteinStep]
  congr 1
  ring

/-- Witness for C4 at `sde = GBM 1 1`, `S = 1`, `t = 0`, `dt = 1`,
`dW = 1`. -/
theorem milstein_advance_formula_witness :
    (0 : ℝ) < 1 ∧
      milsteinAdvance (GBM 1 1) 1 0 1 1 =
        .ok (1 + (GBM 1 1).drift 1 0 * 1 + (GBM 1 1).diffusion 1 0 * 1 +
          0.5 * (GBM 1 1).diffusion 1 0 *
            (((GBM 1 1).diffusion (1 + 1e-5) 0 - (GBM 1 1).diffusion 1 0) / 1e-5) *
            ((1 : ℝ) ^ 2 - 1)) :=
  ⟨by norm_num, milstein_advance_formula (GBM 1 1) 1 0 1 1 (by norm_num)⟩

/-- C7: the `advance` of every scheme fails with `invalidStepSize` exactly
when the supplied `dt` is nonpositive; for `dt > 0` it returns a next
state. -/
theorem advance_invalid_step_size (kind : FDMKind) (sde : SDEfun) (S t dt dW : ℝ) :
    (dt ≤ 0 → advance kind sde S t dt dW = .error .invalidStepSize) ∧
    (0 < dt → ∃ v, advance kind sde S t dt dW = .ok v) := by
  constructor
  · intro h
    cases kind <;> simp [advance, eulerAdvance, milsteinAdvance, pcAdvance, if_pos h]
  · intro h
    exact ⟨stepVal kind sde S t dt dW, advance_ok kind sde S t dt dW h⟩

/-- Witness for C7 at the Euler scheme, `sde = GBM 1 1`, `S = 1`,
`t = 0`, `dW = 1`, once with `dt = 0` and once with `dt = 1`. -/
theorem advance_invalid_step_size_witness :
    advance .eulerMethod (GBM 1 1) 1 0 0 1 = .error .invalidStepSize ∧
      ∃ v, advance .eulerMethod (GBM 1 1) 1 0 1 1 = .ok v :=
  ⟨(advance_invalid_step_size .eulerMethod (GBM 1 1) 1 0 0 1).1 (by norm_num),
   (advance_invalid_step_size .eulerMethod (GBM 1 1) 1 0 1 1).2 (by norm_num)⟩

/-- C8: with all scalars positive and a fixed seed (hence a fixed draw
stream), `solve` is deterministic: two runs with pointwise-identical
draw sequences produce identical output. -/
theorem solve_deterministic (cfg : Config) (d1 d2 : ℕ → ℝ)
    (hS0 : 0 < cfg.S0) (hT : 0 < cfg.T) (hN : 0 < cfg.N) (hM : 0 < cfg.M)
    (hd : ∀ n, d1 n = d2 n) : solve cfg d1 = solve cfg d2 := by
  have h : d1 = d2 := funext hd
  rw [h]

/-- Witness for C8 at the concrete configuration `cfgGBM1` and the zero
draw stream. -/
theorem solve_deterministic_witness :
    (0 : ℝ) < cfgGBM1.S0 ∧ (0 : ℝ) < cfgGBM1.T ∧ 0 < cfgGBM1.N ∧ 0 < cfgGBM1.M ∧
      solve cfgGBM1 drawsZero = solve cfgGBM1 drawsZero :=
  ⟨by norm_num [cfgGBM1], by norm_num [cfgGBM1], by norm_num [cfgGBM1], by norm_num [cfgGBM1],
   solve_deterministic cfgGBM1 drawsZero drawsZero (by norm_num [cfgGBM1])
     (by norm_num [cfgGBM1]) (by norm_num [cfgGBM1]) (by norm_num [cfgGBM1])
     (fun _n => rfl)⟩

/-- C9: the path form of `BarrierOption` evaluates the terminal form at the
last element of the path; the intermediate values `xs` never affect the
payoff (barrier monitoring at maturity only). -/
theorem barrier_path_terminal_only (K B : ℝ) (c u i : Bool) (xs : List ℝ) (z : ℝ) :
    payoffPath (.BarrierOption K B c u i) (xs ++ [z]) =
      payoffTerminal (.BarrierOption K B c u i) z := by
  simp [payoffPath, List.getLastD_concat]

/-- C5: for identical `(K, B, isCall, isUp)`, the in-barrier payoff plus
the out-barrier payoff on the same terminal price — and hence on the
same path — equals the corresponding vanilla European payoff: a
deterministic per-path identity, with no averaging over paths. -/
theorem barrier_in_out_parity (K B : ℝ) (c u : Bool) :
    (∀ S : ℝ,
      payoffTerminal (.BarrierOption K B c u true) S +
        payoffTerminal (.BarrierOption K B c u false) S =
      (if c then payoffTerminal (.EuropeanCall K) S
       else payoffTerminal (.EuropeanPut K) S)) ∧
    (∀ p : List ℝ,
      payoffPath (.BarrierOption K B c u true) p +
        payoffPath (.BarrierOption K B c u false) p =
      (if c then payoffPath (.EuropeanCall K) p
       else payoffPath (.EuropeanPut K) p)) := by
  have hterm : ∀ S : ℝ,
      payoffTerminal (.BarrierOption K B c u true) S +
        payoffTerminal (.BarrierOption K B c u false) S =
      (if c then payoffTerminal (.EuropeanCall K) S
       else payoffTerminal (.EuropeanPut K) S) := by
    intro S
    simp only [payoffTerminal]
    rcases Bool.eq_false_or_eq_true (if u then decide (S ≥ B) else decide (S ≤ B)) with h | h <;>
      cases c <;> simp [h]
  refine ⟨hterm, fun p => ?_⟩
  have := hterm (p.getLastD 0)
  cases c <;> simpa [payoffPath] using this

lemma payoffTerminal_nonneg (pf : Payoff) (S : ℝ) : 0 ≤ payoffTerminal pf S := by
  cases pf with
  | EuropeanCall K => simp only [payoffTerminal]; exact le_max_right _ _
  | EuropeanPut K => simp only [payoffTerminal]; exact le_max_right _ _
  | BarrierOption K B c u i =>
      simp only [payoffTerminal]
      split_ifs <;> simp [le_max_right]
  | AsianOption K c => simp [payoffTerminal]

lemma payoffPath_nonneg (pf : Payoff) (p : List ℝ) : 0 ≤ payoffPath pf p := by
  cases pf with
  | EuropeanCall K => simp only [payoffPath]; exact payoffTerminal_nonneg _ _
  | EuropeanPut K => simp only [payoffPath]; exact payoffTerminal_nonneg _ _
  | BarrierOption K B c u i => simp only [payoffPath]; exact payoffTerminal_nonneg _ _
  | AsianOption K c =>
      simp only [payoffPath]
      split_ifs <;> exact le_max_right _ _

lemma pathLoop_ok_nonneg (cfg : Config) (draws : ℕ → ℝ) (dt : ℝ) :
    ∀ m i sum r, 0 ≤ sum → pathLoop cfg draws dt m i sum = .ok r → 0 ≤ r := by
  intro m
  induction m with
  | zero =>
      intro i sum r hs h
      simp only [pathLoop, Except.ok.injEq] at h
      exact h ▸ hs
  | succ m ih =>
      intro i sum r hs h
      cases hsp : simPath cfg draws dt i with
      | error e => simp [pathLoop, hsp] at h
      | ok val =>
          obtain ⟨S, path⟩ := val
          simp only [pathLoop, hsp] at h
          refine ih (i + 1) _ r ?_ h
          have hc : 0 ≤ (if cfg.payoff.isAsian then payoffPath cfg.payoff path
              else payoffTerminal cfg.payoff S) := by
            split_ifs
            · exact payoffPath_nonneg _ _
            · exact payoffTerminal_nonneg _ _
          linarith

/-- C10: every payoff variant is nonnegative — the terminal forms for
every real `S` (with the terminal form of `AsianOption` identically `0`),
the path forms for every path — and consequently every value returned
by `solve` is nonnegative. -/
theorem payoff_and_solve_nonneg :
    (∀ pf : Payoff, ∀ S : ℝ, 0 ≤ payoffTerminal pf S) ∧
    (∀ K : ℝ, ∀ c : Bool, ∀ S : ℝ, payoffTerminal (.AsianOption K c) S = 0) ∧
    (∀ pf : Payoff, ∀ p : List ℝ, 0 ≤ payoffPath pf p) ∧
    (∀ cfg : Config, ∀ draws : ℕ → ℝ, ∀ r : ℝ, solve cfg draws = .ok r → 0 ≤ r) := by
  refine ⟨payoffTerminal_nonneg, fun K c S => rfl, payoffPath_nonneg, ?_⟩
  intro cfg draws r h
  simp only [solve] at h
  by_cases hdt : cfg.T / cfg.N ≤ 0
  · rw [if_pos hdt] at h
    cases h
  · rw [if_neg hdt] at h
    cases hpl : pathLoop cfg draws (cfg.T / cfg.N) cfg.M 0 0 with
    | error e => rw [hpl] at h; cases h
    | ok sum =>
        rw [hpl] at h
        have hr : sum / cfg.M = r := by
          simpa using h
        have hsum : 0 ≤ sum :=
          pathLoop_ok_nonneg cfg draws (cfg.T / cfg.N) cfg.M 0 0 sum le_rfl hpl
        exact hr ▸ div_nonneg hsum (Nat.cast_nonneg _)

/-- Witness for C10: `solve` at the concrete configuration `cfgGBM1`
returns `2`, which the theorem shows is nonnegative. -/
theorem payoff_and_solve_nonneg_witness :
    solve cfgGBM1 drawsZero = .ok 2 ∧ (0 : ℝ) ≤ 2 := by
  have hev : solve cfgGBM1 drawsZero = .ok 2 := by
    norm_num [solve, pathLoop, simPath, simSteps, advance, eulerAdvance, eulerStep, GBM,
      cfgGBM1, drawsZero, Real.sqrt_one, Payoff.isAsian, payoffTerminal]
  exact ⟨hev, payoff_and_solve_nonneg.2.2.2 cfgGBM1 drawsZero 2 hev⟩

lemma simSteps_ok_spec (cfg : Config) (draws : ℕ → ℝ) (dt : ℝ) (base : ℕ) :
    ∀ steps j S acc S' path, acc.head? = some S →
      simSteps cfg draws dt base steps j S acc = .ok (S', path) →
      path.length = acc.length + steps ∧ path.getLast? = some S' := by
  intro steps
  induction steps with
  | zero =>
      intro j S acc S' path hh h
      simp only [simSteps, Except.ok.injEq, Prod.mk.injEq] at h
      obtain ⟨rfl, rfl⟩ := h
      exact ⟨by simp, by rw [List.getLast?_reverse, hh]⟩
  | succ steps ih =>
      intro j S acc S' path hh h
      simp only [simSteps] at h
      cases hadv : advance cfg.fdmKind cfg.sde S (j * dt) dt
          (Real.sqrt dt * draws (base + j)) with
      | error e => rw [hadv] at h; cases h
      | ok S1 =>
          rw [hadv] at h
          simp only at h
          by_cases hneg : S1 < 0
          · rw [if_pos hneg] at h; cases h
          · rw [if_neg hneg] at h
            have hs := ih (j + 1) S1 (S1 :: acc) S' path rfl h
            refine ⟨?_, hs.2⟩
            have := hs.1
            simp only [List.length_cons] at this
            omega

/-- C1: for every successfully simulated path, the path buffer holds
`N + 1` points, and the payoff accumulated by `solve` — Asian payoffs
on the full path, every other variant on the final state — is the
payoff on the full path for the Asian variant and the terminal payoff
at `path[N]` otherwise; the Asian test holds exactly on the
`AsianOption` variant. -/
theorem solve_payoff_dispatch (cfg : Config) (draws : ℕ → ℝ) (dt : ℝ) (i : ℕ)
    (S : ℝ) (path : List ℝ)
    (h : simPath cfg draws dt i = .ok (S, path)) :
    path.length = cfg.N + 1 ∧
    (if cfg.payoff.isAsian then payoffPath cfg.payoff path
     else payoffTerminal cfg.payoff S) =
    (if cfg.payoff.isAsian then payoffPath cfg.payoff path
     else payoffTerminal cfg.payoff (path.getLastD 0)) ∧
    (cfg.payoff.isAsian = true ↔ ∃ K c, cfg.payoff = Payoff.AsianOption K c) := by
  simp only [simPath] at h
  obtain ⟨hlen, hlast⟩ :=
    simSteps_ok_spec cfg draws dt (i * cfg.N) cfg.N 0 cfg.S0 [cfg.S0] S path rfl h
  refine ⟨?_, ?_, ?_⟩
  · simp only [List.length_singleton] at hlen
    omega
  · have hS : path.getLastD 0 = S := by
      rw [List.getLastD_eq_getLast?, hlast]
      rfl
    rw [hS]
  · cases hp : cfg.payoff <;> simp [Payoff.isAsian]

/-- Witness for C1 at the concrete configuration `cfgGBM1`: one path of
one Euler step, giving the path `[1, 2]` with final state `2`. -/
theorem solve_payoff_dispatch_witness :
    simPath cfgGBM1 drawsZero 1 0 = .ok (2, [1, 2]) ∧
    ([1, 2] : List ℝ).length = cfgGBM1.N + 1 ∧
    (if cfgGBM1.payoff.isAsian then payoffPath cfgGBM1.payoff [1, 2]
     else payoffTerminal cfgGBM1.payoff 2) =
    (if cfgGBM1.payoff.isAsian then payoffPath cfgGBM1.payoff [1, 2]
     else payoffTerminal cfgGBM1.payoff (([1, 2] : List ℝ).getLastD 0)) ∧
    (cfgGBM1.payoff.isAsian = true ↔ ∃ K c, cfgGBM1.payoff = Payoff.AsianOption K c) := by
  have hev : simPath cfgGBM1 drawsZero 1 0 = .ok (2, [1, 2]) := by
    norm_num [simPath, simSteps, advance, eulerAdvance, eulerStep, GBM, cfgGBM1, drawsZero,
      Real.sqrt_one]
  exact ⟨hev, solve_payoff_dispatch cfgGBM1 drawsZero 1 0 2 [1, 2] hev⟩

lemma eulerStep_gbm_zero_vol (mu S t dt dW : ℝ) :
    eulerStep (GBM mu 0) S t dt dW = S * (1 + mu * dt) := by
  simp only [eulerStep, GBM]
  ring

lemma milsteinStep_gbm_zero_vol (mu S t dt dW : ℝ) :
    milsteinStep (GBM mu 0) S t dt dW = S * (1 + mu * dt) := by
  simp only [milsteinStep, GBM]
  ring

lemma pcStep_gbm_zero_vol (mu S t dt dW : ℝ) :
    pcStep (GBM mu 0) S t dt dW = S * (1 + mu * dt + (mu * dt) ^ 2 / 2) := by
  simp only [pcStep, GBM]
  ring

lemma pathState_gbm_euler (mu : ℝ) (cfg : Config) (hsde : cfg.sde = GBM mu 0)
    (hk : cfg.fdmKind = .eulerMethod) (dt : ℝ) (d : ℕ → ℝ) (i : ℕ) :
    ∀ j, pathState cfg d dt i j = cfg.S0 * (1 + mu * dt) ^ j := by
  intro j
  induction j with
  | zero => simp [pathState]
  | succ n ih =>
      simp only [pathState, hk, hsde, stepVal, ih, eulerStep_gbm_zero_vol]
      ring

lemma pathState_gbm_milstein (mu : ℝ) (cfg : Config) (hsde : cfg.sde = GBM mu 0)
    (hk : cfg.fdmKind = .milsteinMethod) (dt : ℝ) (d : ℕ → ℝ) (i : ℕ) :
    ∀ j, pathState cfg d dt i j = cfg.S0 * (1 + mu * dt) ^ j := by
  intro j
  induction j with
  | zero => simp [pathState]
  | succ n ih =>
      simp only [pathState, hk, hsde, stepVal, ih, milsteinStep_gbm_zero_vol]
      ring

lemma pathState_gbm_pc (mu : ℝ) (cfg : Config) (hsde : cfg.sde = GBM mu 0)
    (hk : cfg.fdmKind = .driftAdjustedPredictorCorrector) (dt : ℝ) (d : ℕ → ℝ) (i : ℕ) :
    ∀ j, pathState cfg d dt i j = cfg.S0 * (1 + mu * dt + (mu * dt) ^ 2 / 2) ^ j := by
  intro j
  induction j with
  | zero => simp [pathState]
  | succ n ih =>
      simp only [pathState, hk, hsde, stepVal, ih, pcStep_gbm_zero_vol]
      ring

/-- C2 counterexample: with `GBM(mu=1, sigma=0)`, the Euler scheme,
`S0 = 1` and `dt = 1`, the state after one step is `2`, while the
claimed value `S0 * e^(mu * 1 * dt)` is `e ≠ 2`: the schemes do not
reproduce the exponential exactly. -/
theorem gbm_zero_vol_not_exponential :
    pathState cfgGBM1 drawsZero 1 0 1 = 2 ∧
      (2 : ℝ) ≠ cfgGBM1.S0 * Real.exp (1 * (1 * 1)) := by
  constructor
  · norm_num [pathState, stepVal, eulerStep, GBM, cfgGBM1, drawsZero, Real.sqrt_one]
  · have h : (2.7182818283 : ℝ) < Real.exp 1 := Real.exp_one_gt_d9
    have h2 : (2 : ℝ) < Real.exp 1 := lt_trans (by norm_num) h
    simp only [cfgGBM1]
    norm_num
    exact ne_of_lt h2

/-- C2 (amended): for `GBM(mu, sigma = 0)`, the path of every scheme is
deterministic and independent of the supplied random draws; Euler and
Milstein produce `S0 * (1 + mu*dt)^j` at step `j`, and the
drift-adjusted predictor-corrector produces
`S0 * (1 + mu*dt + (mu*dt)^2/2)^j` — the discrete compounding of the
drift, not the exact exponential `S0 * e^(mu*j*dt)`. -/
theorem gbm_zero_vol_closed_form (mu : ℝ) (cfg : Config) (hsde : cfg.sde = GBM mu 0)
    (dt : ℝ) (draws draws' : ℕ → ℝ) (i i' j : ℕ) :
    (cfg.fdmKind = .eulerMethod ∨ cfg.fdmKind = .milsteinMethod →
      pathState cfg draws dt i j = cfg.S0 * (1 + mu * dt) ^ j) ∧
    (cfg.fdmKind = .driftAdjustedPredictorCorrector →
      pathState cfg draws dt i j = cfg.S0 * (1 + mu * dt + (mu * dt) ^ 2 / 2) ^ j) ∧
    pathState cfg draws dt i j = pathState cfg draws' dt i' j := by
  refine ⟨?_, ?_, ?_⟩
  · rintro (hk | hk)
    · exact pathState_gbm_euler mu cfg hsde hk dt draws i j
    · exact pathState_gbm_milstein mu cfg hsde hk dt draws i j
  · intro hk
    exact pathState_gbm_pc mu cfg hsde hk dt draws i j
  · cases hk : cfg.fdmKind with
    | eulerMethod =>
        rw [pathState_gbm_euler mu cfg hsde hk dt draws i j,
          pathState_gbm_euler mu cfg hsde hk dt draws' i' j]
    | milsteinMethod =>
        rw [pathState_gbm_milstein mu cfg hsde hk dt draws i j,
          pathState_gbm_milstein mu cfg hsde hk dt draws' i' j]
    | driftAdjustedPredictorCorrector =>
        rw [pathState_gbm_pc mu cfg hsde hk dt draws i j,
          pathState_gbm_pc mu cfg hsde hk dt draws' i' j]

/-- Witness for C2 (amended) at the concrete configuration `cfgGBM1`
with `mu = 1`, `dt = 1`, step `j = 1` and two draw streams. -/
theorem gbm_zero_vol_closed_form_witness :
    cfgGBM1.sde = GBM 1 0 ∧
    ((cfgGBM1.fdmKind = .eulerMethod ∨ cfgGBM1.fdmKind = .milsteinMethod →
        pathState cfgGBM1 drawsZero 1 0 1 = cfgGBM1.S0 * (1 + 1 * 1) ^ 1) ∧
      (cfgGBM1.fdmKind = .driftAdjustedPredictorCorrector →
        pathState cfgGBM1 drawsZero 1 0 1 =
          cfgGBM1.S0 * (1 + 1 * 1 + (1 * 1) ^ 2 / 2) ^ 1) ∧
      pathState cfgGBM1 drawsZero 1 0 1 = pathState cfgGBM1 (fun _n => 1) 1 0 1) :=
  ⟨rfl, gbm_zero_vol_closed_form 1 cfgGBM1 rfl 1 drawsZero (fun _n => 1) 0 0 1⟩

lemma simSteps_error_iff (cfg : Config) (draws : ℕ → ℝ) (dt : ℝ) (i : ℕ)
    (hdt : 0 < dt) (e : Err) :
    ∀ steps j acc,
      simSteps cfg draws dt (i * cfg.N) steps j (pathState cfg draws dt i j) acc = .error e ↔
      (e = .negativeAssetPrice ∧ ∃ k, k < steps ∧ pathState cfg draws dt i (j + k + 1) < 0) := by
  intro steps
  induction steps with
  | zero =>
      intro j acc
      simp [simSteps]
  | succ steps ih =>
      intro j acc
      have hadv : advance cfg.fdmKind cfg.sde (pathState cfg draws dt i j) (j * dt) dt
          (Real.sqrt dt * draws (i * cfg.N + j)) = .ok (pathState cfg draws dt i (j + 1)) := by
        rw [advance_ok _ _ _ _ _ _ hdt]
        rfl
      simp only [simSteps, hadv]
      by_cases hneg : pathState cfg draws dt i (j + 1) < 0
      · rw [if_pos hneg]
        constructor
        · intro h
          injection h with h'
          exact ⟨h'.symm, 0, Nat.succ_pos _, by simpa using hneg⟩
        · rintro ⟨rfl, -⟩
          rfl
      · rw [if_neg hneg]
        rw [ih (j + 1)]
        constructor
        · rintro ⟨rfl, k, hk, hlt⟩
          refine ⟨rfl, k + 1, by omega, ?_⟩
          convert hlt using 2
          omega
        · rintro ⟨rfl, k, hk, hlt⟩
          cases k with
          | zero => exact absurd (by simpa using hlt) hneg
          | succ k =>
              refine ⟨rfl, k, by omega, ?_⟩
              convert hlt using 2
              omega

lemma simPath_error_iff (cfg : Config) (draws : ℕ → ℝ) (dt : ℝ) (i : ℕ)
    (hdt : 0 < dt) (e : Err) :
    simPath cfg draws dt i = .error e ↔
      (e = .negativeAssetPrice ∧ ∃ j, j < cfg.N ∧ pathState cfg draws dt i (j + 1) < 0) := by
  have h := simSteps_error_iff cfg draws dt i hdt e cfg.N 0 [cfg.S0]
  have h0 : pathState cfg draws dt i 0 = cfg.S0 := rfl
  rw [h0] at h
  rw [show simPath cfg draws dt i =
      simSteps cfg draws dt (i * cfg.N) cfg.N 0 cfg.S0 [cfg.S0] from rfl]
  rw [h]
  constructor <;> rintro ⟨rfl, k, hk, hlt⟩ <;> exact ⟨rfl, k, hk, by simpa using hlt⟩

lemma pathLoop_error_iff (cfg : Config) (draws : ℕ → ℝ) (dt : ℝ) (hdt : 0 < dt) (e : Err) :
    ∀ m i sum, pathLoop cfg draws dt m i sum = .error e ↔
      (e = .negativeAssetPrice ∧ ∃ k, k < m ∧ ∃ j, j < cfg.N ∧
        pathState cfg draws dt (i + k) (j + 1) < 0) := by
  intro m
  induction m with
  | zero =>
      intro i sum
      simp [pathLoop]
  | succ m ih =>
      intro i sum
      cases hsp : simPath cfg draws dt i with
      | error e' =>
          obtain ⟨rfl, j, hj, hlt⟩ := (simPath_error_iff cfg draws dt i hdt e').mp hsp
          simp only [pathLoop, hsp]
          constructor
          · intro h
            injection h with h'
            exact ⟨h'.symm, 0, Nat.succ_pos _, j, hj, by simpa using hlt⟩
          · rintro ⟨rfl, -⟩
            rfl
      | ok val =>
          obtain ⟨S, path⟩ := val
          have hnone : ¬ ∃ j, j < cfg.N ∧ pathState cfg draws dt i (j + 1) < 0 := by
            intro hex
            have hcon : simPath cfg draws dt i = .error .negativeAssetPrice :=
              (simPath_error_iff cfg draws dt i hdt .negativeAssetPrice).mpr ⟨rfl, hex⟩
            rw [hsp] at hcon
            cases hcon
          simp only [pathLoop, hsp]
          rw [ih (i + 1)]
          constructor
          · rintro ⟨rfl, k, hk, j, hj, hlt⟩
            refine ⟨rfl, k + 1, by omega, j, hj, ?_⟩
            convert hlt using 2
            omega
          · rintro ⟨rfl, k, hk, j, hj, hlt⟩
            cases k with
            | zero => exact absurd ⟨j, hj, by simpa using hlt⟩ hnone
            | succ k =>
                refine ⟨rfl, k, by omega, j, hj, ?_⟩
                convert hlt using 2
                omega

/-- C6: with a positive derived step size, `solve` aborts with the
`negativeAssetPrice` condition exactly when some advanced state of some
path is strictly negative (the run then returns no numeric value and no
state is clamped to zero); in a run in which all advanced states are
nonnegative the condition is never raised. -/
theorem solve_negative_asset_price_iff (cfg : Config) (draws : ℕ → ℝ)
    (hdt : 0 < cfg.T / cfg.N) :
    solve cfg draws = .error .negativeAssetPrice ↔
      ∃ i, i < cfg.M ∧ ∃ j, j < cfg.N ∧
        pathState cfg draws (cfg.T / cfg.N) i (j + 1) < 0 := by
  have h' : ¬ cfg.T / cfg.N ≤ 0 := not_le.mpr hdt
  simp only [solve, if_neg h']
  cases hpl : pathLoop cfg draws (cfg.T / cfg.N) cfg.M 0 0 with
  | error e =>
      obtain ⟨rfl, hex⟩ := (pathLoop_error_iff cfg draws _ hdt e cfg.M 0 0).mp hpl
      simp only [hpl]
      constructor
      · intro _
        obtain ⟨k, hk, j, hj, hlt⟩ := hex
        exact ⟨k, hk, j, hj, by simpa using hlt⟩
      · intro _
        trivial
  | ok sum =>
      simp only [hpl]
      constructor
      · intro h
        cases h
      · rintro ⟨i, hi, j, hj, hlt⟩
        have hcon : pathLoop cfg draws (cfg.T / cfg.N) cfg.M 0 0 = .error .negativeAssetPrice :=
          (pathLoop_error_iff cfg draws _ hdt .negativeAssetPrice cfg.M 0 0).mpr
            ⟨rfl, i, hi, j, hj, by simpa using hlt⟩
        rw [hpl] at hcon
        cases hcon

/-- Witness for C6 at the concrete configuration `cfgGBM1` (where the
derived step size is `1 > 0`). -/
theorem solve_negative_asset_price_iff_witness :
    0 < cfgGBM1.T / cfgGBM1.N ∧
      (solve cfgGBM1 drawsZero = .error .negativeAssetPrice ↔
        ∃ i, i < cfgGBM1.M ∧ ∃ j, j < cfgGBM1.N ∧
          pathState cfgGBM1 drawsZero (cfgGBM1.T / cfgGBM1.N) i (j + 1) < 0) :=
  ⟨by norm_num [cfgGBM1],
   solve_negative_asset_price_iff cfgGBM1 drawsZero (by norm_num [cfgGBM1])⟩

end MC
